import Mathlib

/-!
# Verification of the RAG backend against its specification

Shallow embedding of the ingestion-and-retrieval pipeline of the
`physical_AI_book` backend:

* `backend/utils/text_splitter.py` — the chunker (`TextSplitter.split_text`
  and its helpers), embedded over `List Char` (a Python `str` is modelled as
  its list of characters);
* `backend/services/embedding.py` — embedding generation, chunk assembly and
  storage (`EmbeddingService`);
* `backend/services/retrieval.py` — search and context assembly
  (`RetrievalService`);
* `backend/services/rag.py` — query orchestration (`RAGService`);
* `backend/services/cohere_service.py` — optional enhancement
  (`CohereService`).

External collaborators (the Qwen embedding/generation API, the Qdrant
client, the Cohere client) are modelled as oracle parameters: an
`Option Unit` for "client object present or `None`", and an `Except`-valued
outcome standing for the external call either returning a value or raising.
-/

/-- Sentence terminator characters: the character class of the regex
`[.!?]+` used in `text_splitter.py`. -/
def isTerm (c : Char) : Bool := c == '.' || c == '!' || c == '?'

/-- Characters that the chunking pipeline is expected to preserve: neither
whitespace (normalised away by stripping/joining) nor a sentence terminator
(consumed by the `re.split(r'[.!?]+', ...)` calls). -/
def keepChar (c : Char) : Bool := !c.isWhitespace && !isTerm c

/-- Removal of leading whitespace (left half of Python `str.strip()`). -/
def ltrim (l : List Char) : List Char := l.dropWhile Char.isWhitespace

/-- Removal of trailing whitespace (right half of Python `str.strip()`):
a character is kept iff something non-whitespace follows it or it is
non-whitespace itself. -/
def rtrim : List Char → List Char
  | [] => []
  | c :: rest =>
    if rtrim rest = [] then (if c.isWhitespace then [] else [c])
    else c :: rtrim rest

theorem rtrim_cons (c : Char) (rest : List Char) :
    rtrim (c :: rest) =
      if rtrim rest = [] then (if c.isWhitespace then [] else [c])
      else c :: rtrim rest := rfl

/-- Python `str.strip()`: remove leading and trailing whitespace. -/
def strip (l : List Char) : List Char := rtrim (ltrim l)

/-- Python `text.split('\n\n')`: split at each non-overlapping occurrence of
two consecutive newline characters, keeping empty pieces. -/
def splitParas : List Char → List (List Char)
  | [] => [[]]
  | [c] => [[c]]
  | c :: d :: rest =>
    if c = '\n' ∧ d = '\n' then [] :: splitParas rest
    else
      match splitParas (d :: rest) with
      | [] => [[c]]
      | s :: ss => (c :: s) :: ss

theorem length_dropWhile_le (p : Char → Bool) (l : List Char) :
    (l.dropWhile p).length ≤ l.length := by
  induction l with
  | nil => simp [List.dropWhile]
  | cons c rest ih =>
    rw [List.dropWhile_cons]
    split
    · exact Nat.le_succ_of_le ih
    · exact Nat.le_refl _

/-- Worker for `re.split(r'[.!?]+', s)`: the Boolean flag records whether
the previous character was a terminator, i.e. whether we are still inside a
maximal run (which `re.split` consumes as a single boundary). -/
def reSplitTermGo : Bool → List Char → List (List Char)
  | _, [] => [[]]
  | inRun, c :: rest =>
    if isTerm c then
      if inRun then reSplitTermGo true rest
      else [] :: reSplitTermGo true rest
    else
      match reSplitTermGo false rest with
      | [] => [[c]]
      | s :: ss => (c :: s) :: ss

/-- Python `re.split(r'[.!?]+', s)`: split at each maximal run of sentence
terminators; the terminators themselves are consumed.  Leading/trailing
empty segments are kept (as `re.split` does), interior empty segments do
not arise because a run is consumed as a whole. -/
def reSplitTerm (l : List Char) : List (List Char) := reSplitTermGo false l

/-- The `if current_chunk.strip(): chunks.append(current_chunk.strip())`
idiom of `text_splitter.py`: the flushed contribution of a running buffer. -/
def flushChunk (cur : List Char) : List (List Char) :=
  if strip cur ≠ [] then [strip cur] else []

/-- The shared sentence-accumulation loop of
`TextSplitter._split_large_paragraph` and `TextSplitter._split_large_chunk`
(`text_splitter.py` lines 61–74 and 90–103): each sentence is stripped,
empty sentences are skipped, and stripped sentences are greedily packed
into a running buffer re-joined with single spaces; the buffer is flushed
(stripped, dropped if blank) whenever the next sentence would overflow
`chunk_size`, and once more at the end. -/
def sentLoop (cs : Nat) : List (List Char) → List Char → List (List Char)
  | [], cur => flushChunk cur
  | s :: ss, cur =>
    let s' := strip s
    if s' = [] then sentLoop cs ss cur
    else if cur.length + s'.length > cs then
      flushChunk cur ++ sentLoop cs ss s'
    else sentLoop cs ss (cur ++ ' ' :: s')

/-- `TextSplitter._split_large_paragraph` (`text_splitter.py` 53–76). -/
def split_large_paragraph (cs : Nat) (paragraph : List Char) : List (List Char) :=
  sentLoop cs (reSplitTerm paragraph) []

/-- `TextSplitter._split_large_chunk` (`text_splitter.py` 78–105). -/
def split_large_chunk (cs : Nat) (chunk : List Char) : List (List Char) :=
  if chunk.length ≤ cs then [chunk]
  else sentLoop cs (reSplitTerm chunk) []

/-- The paragraph-accumulation loop of `TextSplitter.split_text`
(`text_splitter.py` lines 23–41): paragraphs are greedily packed into a
running buffer joined with `"\n\n"`; when the next paragraph would overflow
`chunk_size` the buffer is flushed, and an oversized paragraph is split at
sentence boundaries instead of being buffered. -/
def paraLoop (cs : Nat) : List (List Char) → List Char → List (List Char)
  | [], cur => flushChunk cur
  | p :: ps, cur =>
    if cur.length + p.length > cs then
      flushChunk cur ++
        (if p.length > cs then split_large_paragraph cs p ++ paraLoop cs ps []
         else paraLoop cs ps p)
    else paraLoop cs ps (cur ++ '\n' :: '\n' :: p)

/-- `TextSplitter.split_text` (`text_splitter.py` lines 10–51): texts no
longer than `chunk_size` are returned verbatim as a single chunk; otherwise
the text is split at paragraph boundaries, oversized paragraphs at sentence
boundaries, and a final pass re-splits any chunk still exceeding
`chunk_size`. -/
def split_text (cs : Nat) (text : List Char) : List (List Char) :=
  if text.length ≤ cs then [text]
  else
    let chunks := paraLoop cs (splitParas text) []
    (chunks.map (fun c => if c.length > cs then split_large_chunk cs c else [c])).flatten

/-! ## Basic facts about stripping -/

theorem keepChar_of_ws {c : Char} (h : c.isWhitespace = true) :
    keepChar c = false := by
  simp [keepChar, h]

theorem filter_dropWhile_of_imp (p q : Char → Bool)
    (hpq : ∀ c, q c = true → p c = false) (l : List Char) :
    (l.dropWhile q).filter p = l.filter p := by
  induction l with
  | nil => rfl
  | cons c rest ih =>
    rw [List.dropWhile_cons]
    split
    · rw [ih, List.filter_cons]
      simp [hpq c (by assumption)]
    · rfl

theorem ltrim_all_ws {l : List Char} (h : ∀ c ∈ l, c.isWhitespace = true) :
    ltrim l = [] := by
  induction l with
  | nil => rfl
  | cons c rest ih =>
    show List.dropWhile _ _ = _
    rw [List.dropWhile_cons, if_pos (h c (by simp))]
    exact ih fun c hc => h c (by simp [hc])

theorem ltrim_mem {l : List Char} {a : Char} (h : a ∈ ltrim l) : a ∈ l := by
  induction l with
  | nil => exact absurd h (by simp [ltrim])
  | cons c rest ih =>
    revert h
    show a ∈ List.dropWhile _ _ → _
    rw [List.dropWhile_cons]
    split
    · intro h; exact List.mem_cons_of_mem _ (ih h)
    · intro h; exact h

theorem ltrim_ws_prefix {l : List Char} :
    ∃ w, l = w ++ ltrim l ∧ ∀ c ∈ w, c.isWhitespace = true := by
  refine ⟨l.takeWhile Char.isWhitespace, ?_, ?_⟩
  · exact (List.takeWhile_append_dropWhile ..).symm
  · intro c hc; exact List.mem_takeWhile_imp hc

theorem rtrim_mem {l : List Char} {a : Char} (h : a ∈ rtrim l) : a ∈ l := by
  induction l with
  | nil => exact absurd h (by simp [rtrim])
  | cons c rest ih =>
    rw [rtrim_cons] at h
    by_cases hr : rtrim rest = []
    · rw [if_pos hr] at h
      by_cases hw : c.isWhitespace
      · exact absurd h (by simp [hw])
      · simp [hw] at h; simp [h]
    · rw [if_neg hr] at h
      rcases List.mem_cons.mp h with h | h
      · simp [h]
      · exact List.mem_cons_of_mem _ (ih h)

theorem rtrim_eq_nil_iff {l : List Char} :
    rtrim l = [] ↔ ∀ c ∈ l, c.isWhitespace = true := by
  induction l with
  | nil => simp [rtrim]
  | cons c rest ih =>
    rw [rtrim_cons]
    by_cases hr : rtrim rest = []
    · rw [if_pos hr]
      constructor
      · intro h x hx
        rcases List.mem_cons.mp hx with rfl | hx
        · by_contra hws
          simp [Bool.not_eq_true] at hws
          simp [hws] at h
        · exact (ih.mp hr) x hx
      · intro h
        rw [if_pos (h c (by simp))]
    · rw [if_neg hr]
      constructor
      · intro h; exact absurd h (by simp)
      · intro h
        exact absurd (ih.mpr fun x hx => h x (by simp [hx])) hr

theorem rtrim_all_ws {l : List Char} (h : ∀ c ∈ l, c.isWhitespace = true) :
    rtrim l = [] := rtrim_eq_nil_iff.mpr h

theorem filter_rtrim (p : Char → Bool)
    (hp : ∀ c, c.isWhitespace = true → p c = false) (l : List Char) :
    (rtrim l).filter p = l.filter p := by
  induction l with
  | nil => rfl
  | cons c rest ih =>
    rw [rtrim_cons]
    by_cases hr : rtrim rest = []
    · have hrest : List.filter p rest = [] := by
        rw [List.filter_eq_nil_iff]
        intro a ha
        simp [hp a (rtrim_eq_nil_iff.mp hr a ha)]
      rw [if_pos hr]
      by_cases hw : c.isWhitespace
      · rw [if_pos hw, List.filter_cons, hrest]
        simp [hp c hw]
      · rw [if_neg hw, List.filter_cons, List.filter_cons, hrest]
        rfl
    · rw [if_neg hr, List.filter_cons, List.filter_cons, ih]

theorem strip_nil : strip [] = [] := rfl

theorem filter_strip (p : Char → Bool)
    (hp : ∀ c, c.isWhitespace = true → p c = false) (l : List Char) :
    (strip l).filter p = l.filter p := by
  unfold strip ltrim
  rw [filter_rtrim p hp, filter_dropWhile_of_imp p Char.isWhitespace hp]

theorem filter_keepChar_strip (l : List Char) :
    (strip l).filter keepChar = l.filter keepChar :=
  filter_strip keepChar (fun _ h => keepChar_of_ws h) l

theorem strip_mem {l : List Char} {a : Char} (h : a ∈ strip l) : a ∈ l :=
  ltrim_mem (rtrim_mem h)

theorem strip_all_ws {l : List Char} (h : ∀ c ∈ l, c.isWhitespace = true) :
    strip l = [] := by
  unfold strip
  rw [ltrim_all_ws h]
  rfl

theorem strip_eq_nil_iff {l : List Char} :
    strip l = [] ↔ ∀ c ∈ l, c.isWhitespace = true := by
  constructor
  · intro h c hc
    obtain ⟨w, hw, hws⟩ := ltrim_ws_prefix (l := l)
    rw [hw] at hc
    rcases List.mem_append.mp hc with hcw | hcl
    · exact hws c hcw
    · exact rtrim_eq_nil_iff.mp h c hcl
  · exact strip_all_ws

theorem ltrim_cons (c : Char) (l : List Char) :
    ltrim (c :: l) = if c.isWhitespace then ltrim l else c :: l := by
  simp [ltrim, List.dropWhile_cons]

theorem ltrim_idem (l : List Char) : ltrim (ltrim l) = ltrim l := by
  induction l with
  | nil => rfl
  | cons c rest ih =>
    rw [ltrim_cons]
    by_cases hw : c.isWhitespace
    · rw [if_pos hw]; exact ih
    · rw [if_neg hw, ltrim_cons, if_neg hw]

theorem rtrim_idem (l : List Char) : rtrim (rtrim l) = rtrim l := by
  induction l with
  | nil => rfl
  | cons c rest ih =>
    rw [rtrim_cons]
    by_cases hr : rtrim rest = []
    · rw [if_pos hr]
      by_cases hw : c.isWhitespace
      · rw [if_pos hw]; rfl
      · rw [if_neg hw, rtrim_cons]
        simp [rtrim, hw]
    · rw [if_neg hr, rtrim_cons, ih, if_neg hr]

theorem ltrim_rtrim {l : List Char} (h : ltrim l = l) :
    ltrim (rtrim l) = rtrim l := by
  cases l with
  | nil => rfl
  | cons c rest =>
    have hw : ¬ c.isWhitespace := by
      intro hww
      rw [ltrim_cons, if_pos hww] at h
      have hle := length_dropWhile_le Char.isWhitespace rest
      have hlen := congrArg List.length h
      simp only [ltrim] at hlen
      simp [hlen] at hle
    rw [rtrim_cons]
    by_cases hr : rtrim rest = []
    · rw [if_pos hr, if_neg hw, ltrim_cons, if_neg hw]
    · rw [if_neg hr, ltrim_cons, if_neg hw]

theorem strip_idem (l : List Char) : strip (strip l) = strip l := by
  show rtrim (ltrim (rtrim (ltrim l))) = rtrim (ltrim l)
  rw [ltrim_rtrim (ltrim_idem l), rtrim_idem]

theorem ltrim_noWs {l : List Char} (h : ∀ c ∈ l, c.isWhitespace = false) :
    ltrim l = l := by
  cases l with
  | nil => rfl
  | cons c rest =>
    rw [ltrim_cons, if_neg (by simp [h c (by simp)])]

theorem rtrim_noWs {l : List Char} (h : ∀ c ∈ l, c.isWhitespace = false) :
    rtrim l = l := by
  induction l with
  | nil => rfl
  | cons c rest ih =>
    have hr : rtrim rest = rest := ih fun x hx => h x (by simp [hx])
    rw [rtrim_cons, hr]
    cases rest with
    | nil => simp [h c (by simp)]
    | cons d ds => simp

theorem strip_noWs {l : List Char} (h : ∀ c ∈ l, c.isWhitespace = false) :
    strip l = l := by
  show rtrim (ltrim l) = l
  rw [ltrim_noWs h, rtrim_noWs h]

theorem strip_cons_nl2 (l : List Char) : strip ('\n' :: '\n' :: l) = strip l := by
  show rtrim (ltrim _) = rtrim (ltrim _)
  rw [ltrim_cons, if_pos (by decide), ltrim_cons, if_pos (by decide)]

/-! ## Facts about paragraph splitting -/

theorem splitParas_nil : splitParas [] = [[]] := rfl

theorem splitParas_one (c : Char) : splitParas [c] = [[c]] := rfl

theorem splitParas_nl (rest : List Char) :
    splitParas ('\n' :: '\n' :: rest) = [] :: splitParas rest := rfl

theorem splitParas_cons_cons {c d : Char} {rest : List Char}
    (h : ¬(c = '\n' ∧ d = '\n')) {s : List Char} {ss : List (List Char)}
    (hsp : splitParas (d :: rest) = s :: ss) :
    splitParas (c :: d :: rest) = (c :: s) :: ss := by
  show (if c = '\n' ∧ d = '\n' then [] :: splitParas rest
    else match splitParas (d :: rest) with
      | [] => [[c]]
      | s :: ss => (c :: s) :: ss) = _
  rw [if_neg h, hsp]

theorem splitParas_ne_nil (l : List Char) : splitParas l ≠ [] := by
  induction l using splitParas.induct with
  | case1 => simp [splitParas_nil]
  | case2 c => simp [splitParas_one]
  | case3 c d rest h ih =>
    obtain ⟨rfl, rfl⟩ := h
    simp [splitParas_nl]
  | case4 c d rest h hnil ih => exact absurd hnil ih
  | case5 c d rest h s ss hsp ih => simp [splitParas_cons_cons h hsp]

theorem splitParas_mem (l : List Char) :
    ∀ s ∈ splitParas l, ∀ a ∈ s, a ∈ l := by
  induction l using splitParas.induct with
  | case1 => simp [splitParas_nil]
  | case2 c => simp [splitParas_one]
  | case3 c d rest h ih =>
    obtain ⟨rfl, rfl⟩ := h
    rw [splitParas_nl]
    intro s hs a ha
    rcases List.mem_cons.mp hs with rfl | hs
    · exact absurd ha (by simp)
    · exact List.mem_cons_of_mem _ (List.mem_cons_of_mem _ (ih s hs a ha))
  | case4 c d rest h hnil ih => exact absurd hnil (splitParas_ne_nil _)
  | case5 c d rest h s ss hsp ih =>
    rw [splitParas_cons_cons h hsp]
    intro t ht a ha
    rcases List.mem_cons.mp ht with rfl | ht
    · rcases List.mem_cons.mp ha with rfl | ha
      · simp
      · exact List.mem_cons_of_mem _ (ih s (by simp [hsp]) a ha)
    · exact List.mem_cons_of_mem _ (ih t (by simp [hsp, ht]) a ha)

theorem splitParas_flatten_filter (p : Char → Bool) (hnl : p '\n' = false)
    (l : List Char) :
    ((splitParas l).flatten).filter p = l.filter p := by
  induction l using splitParas.induct with
  | case1 => rfl
  | case2 c => simp [splitParas_one]
  | case3 c d rest h ih =>
    obtain ⟨rfl, rfl⟩ := h
    rw [splitParas_nl]
    simp only [List.flatten_cons, List.nil_append, ih,
      List.filter_cons, hnl]
    simp
  | case4 c d rest h hnil ih => exact absurd hnil (splitParas_ne_nil _)
  | case5 c d rest h s ss hsp ih =>
    rw [splitParas_cons_cons h hsp]
    rw [hsp] at ih
    simp only [List.flatten_cons] at ih
    simp only [List.flatten_cons, List.cons_append, List.filter_cons, ih]

theorem splitParas_no_nl {l : List Char} (h : ∀ c ∈ l, c ≠ '\n') :
    splitParas l = [l] := by
  induction l using splitParas.induct with
  | case1 => rfl
  | case2 c => rfl
  | case3 c d rest hcd ih =>
    exact absurd hcd.1 (h c (by simp))
  | case4 c d rest hcd hnil ih => exact absurd hnil (splitParas_ne_nil _)
  | case5 c d rest hcd s ss hsp ih =>
    have hall := ih fun x hx => h x (List.mem_cons_of_mem _ hx)
    exact splitParas_cons_cons hcd hall

theorem splitParas_append_nl {p rest : List Char} (h : ∀ c ∈ p, c ≠ '\n') :
    splitParas (p ++ '\n' :: '\n' :: rest) = p :: splitParas rest := by
  induction p with
  | nil => exact splitParas_nl rest
  | cons c p' ih =>
    have hc : c ≠ '\n' := h c (by simp)
    have ih' := ih fun x hx => h x (by simp [hx])
    cases p' with
    | nil => exact splitParas_cons_cons (by simp [hc]) (splitParas_nl rest)
    | cons d p'' =>
      exact splitParas_cons_cons (by simp [hc]) ih'

/-! ## Facts about sentence splitting -/

theorem reSplitTermGo_nil (b : Bool) : reSplitTermGo b [] = [[]] := rfl

theorem reSplitTermGo_cons (b : Bool) (c : Char) (rest : List Char) :
    reSplitTermGo b (c :: rest) =
      if isTerm c then
        (if b then reSplitTermGo true rest
         else [] :: reSplitTermGo true rest)
      else
        match reSplitTermGo false rest with
        | [] => [[c]]
        | s :: ss => (c :: s) :: ss := rfl

theorem reSplitTermGo_cons_not {c : Char} {rest : List Char}
    (h : isTerm c = false) {s : List Char} {ss : List (List Char)}
    (hsp : reSplitTermGo false rest = s :: ss) (b : Bool) :
    reSplitTermGo b (c :: rest) = (c :: s) :: ss := by
  rw [reSplitTermGo_cons, if_neg (by simp [h]), hsp]

theorem reSplitTermGo_ne_nil (l : List Char) :
    ∀ b, reSplitTermGo b l ≠ [] := by
  induction l with
  | nil => intro b; simp [reSplitTermGo_nil]
  | cons c rest ih =>
    intro b
    rw [reSplitTermGo_cons]
    by_cases h : isTerm c
    · rw [if_pos h]
      cases b
      · simp
      · simpa using ih true
    · rw [if_neg h]
      cases hsp : reSplitTermGo false rest with
      | nil => exact absurd hsp (ih false)
      | cons s ss => simp

theorem reSplitTermGo_mem (l : List Char) :
    ∀ b, ∀ s ∈ reSplitTermGo b l, ∀ a ∈ s, a ∈ l := by
  induction l with
  | nil =>
    intro b s hs a ha
    rw [reSplitTermGo_nil] at hs
    simp at hs
    subst hs
    simp at ha
  | cons c rest ih =>
    intro b s hs a ha
    rw [reSplitTermGo_cons] at hs
    by_cases h : isTerm c
    · rw [if_pos h] at hs
      have hs' : s ∈ reSplitTermGo true rest := by
        cases b
        · simp at hs
          rcases hs with rfl | hs
          · exact absurd ha (by simp)
          · exact hs
        · simpa using hs
      exact List.mem_cons_of_mem _ (ih true s hs' a ha)
    · rw [if_neg h] at hs
      cases hsp : reSplitTermGo false rest with
      | nil => exact absurd hsp (reSplitTermGo_ne_nil rest false)
      | cons t ts =>
        rw [hsp] at hs
        rcases List.mem_cons.mp hs with rfl | hs
        · rcases List.mem_cons.mp ha with rfl | ha
          · simp
          · exact List.mem_cons_of_mem _
              (ih false t (by rw [hsp]; simp) a ha)
        · exact List.mem_cons_of_mem _
            (ih false s (by rw [hsp]; simp [hs]) a ha)

theorem reSplitTermGo_noTerm (l : List Char) :
    ∀ b, ∀ s ∈ reSplitTermGo b l, ∀ a ∈ s, isTerm a = false := by
  induction l with
  | nil =>
    intro b s hs a ha
    rw [reSplitTermGo_nil] at hs
    simp at hs
    subst hs
    simp at ha
  | cons c rest ih =>
    intro b s hs a ha
    rw [reSplitTermGo_cons] at hs
    by_cases h : isTerm c
    · rw [if_pos h] at hs
      have hs' : s ∈ reSplitTermGo true rest := by
        cases b
        · simp at hs
          rcases hs with rfl | hs
          · exact absurd ha (by simp)
          · exact hs
        · simpa using hs
      exact ih true s hs' a ha
    · rw [if_neg h] at hs
      cases hsp : reSplitTermGo false rest with
      | nil => exact absurd hsp (reSplitTermGo_ne_nil rest false)
      | cons t ts =>
        rw [hsp] at hs
        rcases List.mem_cons.mp hs with rfl | hs
        · rcases List.mem_cons.mp ha with rfl | ha
          · exact Bool.not_eq_true _ ▸ h
          · exact ih false t (by rw [hsp]; simp) a ha
        · exact ih false s (by rw [hsp]; simp [hs]) a ha

theorem reSplitTermGo_flatten_filter (p : Char → Bool)
    (ht : ∀ c, isTerm c = true → p c = false) (l : List Char) :
    ∀ b, ((reSplitTermGo b l).flatten).filter p = l.filter p := by
  induction l with
  | nil => intro b; rw [reSplitTermGo_nil]; rfl
  | cons c rest ih =>
    intro b
    rw [reSplitTermGo_cons]
    by_cases h : isTerm c
    · rw [if_pos h]
      have hc : p c = false := ht c h
      have hstep :
          ((if b then reSplitTermGo true rest
            else [] :: reSplitTermGo true rest).flatten).filter p =
            ((reSplitTermGo true rest).flatten).filter p := by
        cases b <;> simp
      rw [hstep, ih true, List.filter_cons]
      simp [hc]
    · rw [if_neg h]
      cases hsp : reSplitTermGo false rest with
      | nil => exact absurd hsp (reSplitTermGo_ne_nil rest false)
      | cons t ts =>
        have ihf := ih false
        rw [hsp] at ihf
        simp only [List.flatten_cons] at ihf
        show List.filter p ((c :: t) :: ts).flatten = List.filter p (c :: rest)
        simp only [List.flatten_cons, List.cons_append, List.filter_cons,
          ihf]

theorem reSplitTerm_ne_nil (l : List Char) : reSplitTerm l ≠ [] :=
  reSplitTermGo_ne_nil l false

theorem reSplitTerm_mem (l : List Char) :
    ∀ s ∈ reSplitTerm l, ∀ a ∈ s, a ∈ l :=
  reSplitTermGo_mem l false

theorem reSplitTerm_noTerm (l : List Char) :
    ∀ s ∈ reSplitTerm l, ∀ a ∈ s, isTerm a = false :=
  reSplitTermGo_noTerm l false

theorem reSplitTerm_flatten_filter (p : Char → Bool)
    (ht : ∀ c, isTerm c = true → p c = false) (l : List Char) :
    ((reSplitTerm l).flatten).filter p = l.filter p :=
  reSplitTermGo_flatten_filter p ht l false

theorem reSplitTerm_noTermInput {l : List Char}
    (h : ∀ c ∈ l, isTerm c = false) : reSplitTerm l = [l] := by
  induction l with
  | nil => rfl
  | cons c rest ih =>
    exact reSplitTermGo_cons_not (h c (by simp))
      (ih fun x hx => h x (by simp [hx])) false

/-! ## Facts about the greedy sentence-accumulation loop -/

theorem sentLoop_nil (cs : Nat) (cur : List Char) :
    sentLoop cs [] cur = flushChunk cur := rfl

theorem sentLoop_cons (cs : Nat) (s : List Char) (ss : List (List Char))
    (cur : List Char) :
    sentLoop cs (s :: ss) cur =
      if strip s = [] then sentLoop cs ss cur
      else if cur.length + (strip s).length > cs then
        flushChunk cur ++ sentLoop cs ss (strip s)
      else sentLoop cs ss (cur ++ ' ' :: strip s) := rfl

theorem flushChunk_flatten_filter (p : Char → Bool)
    (hp : ∀ c, c.isWhitespace = true → p c = false) (cur : List Char) :
    ((flushChunk cur).flatten).filter p = cur.filter p := by
  unfold flushChunk
  split
  · simp [filter_strip p hp]
  · next h =>
    have hws := strip_eq_nil_iff.mp (not_not.mp h)
    simp only [List.flatten_nil, List.filter_nil]
    symm
    rw [List.filter_eq_nil_iff]
    intro a ha
    simp [hp a (hws a ha)]

theorem sentLoop_flatten_filter (cs : Nat) (p : Char → Bool)
    (hp : ∀ c, c.isWhitespace = true → p c = false)
    (ss : List (List Char)) :
    ∀ cur, ((sentLoop cs ss cur).flatten).filter p =
      (cur ++ ss.flatten).filter p := by
  induction ss with
  | nil =>
    intro cur
    rw [sentLoop_nil, flushChunk_flatten_filter p hp]
    simp
  | cons s ss ih =>
    intro cur
    rw [sentLoop_cons]
    have hs : (strip s).filter p = s.filter p := filter_strip p hp s
    by_cases h0 : strip s = []
    · rw [if_pos h0, ih cur]
      have : s.filter p = [] := by rw [← hs, h0]; rfl
      simp [List.filter_append, this]
    · rw [if_neg h0]
      by_cases hov : cur.length + (strip s).length > cs
      · rw [if_pos hov]
        simp only [List.flatten_append, List.filter_append,
          flushChunk_flatten_filter p hp, ih (strip s), List.flatten_cons,
          hs]
      · rw [if_neg hov, ih (cur ++ ' ' :: strip s)]
        have hsp : p ' ' = false := hp ' ' (by decide)
        simp [List.filter_append, List.filter_cons, hsp, hs]

theorem sentLoop_out_noTerm (cs : Nat) (ss : List (List Char))
    (hss : ∀ s ∈ ss, ∀ a ∈ s, isTerm a = false) :
    ∀ cur, (∀ a ∈ cur, isTerm a = false) →
      ∀ out ∈ sentLoop cs ss cur, ∀ a ∈ out, isTerm a = false := by
  induction ss with
  | nil =>
    intro cur hcur out hout a ha
    rw [sentLoop_nil] at hout
    unfold flushChunk at hout
    split at hout
    · rcases List.mem_cons.mp hout with rfl | hout
      · exact hcur a (strip_mem ha)
      · exact absurd hout (by simp)
    · exact absurd hout (by simp)
  | cons s ss ih =>
    intro cur hcur out hout a ha
    have hs : ∀ a ∈ strip s, isTerm a = false :=
      fun a ha => hss s (by simp) a (strip_mem ha)
    have hss' : ∀ s ∈ ss, ∀ a ∈ s, isTerm a = false :=
      fun t ht => hss t (by simp [ht])
    rw [sentLoop_cons] at hout
    by_cases h0 : strip s = []
    · rw [if_pos h0] at hout
      exact ih hss' cur hcur out hout a ha
    · rw [if_neg h0] at hout
      by_cases hov : cur.length + (strip s).length > cs
      · rw [if_pos hov] at hout
        rcases List.mem_append.mp hout with hout | hout
        · unfold flushChunk at hout
          split at hout
          · rcases List.mem_cons.mp hout with rfl | hout
            · exact hcur a (strip_mem ha)
            · exact absurd hout (by simp)
          · exact absurd hout (by simp)
        · exact ih hss' (strip s) hs out hout a ha
      · rw [if_neg hov] at hout
        refine ih hss' (cur ++ ' ' :: strip s) ?_ out hout a ha
        intro x hx
        rcases List.mem_append.mp hx with hx | hx
        · exact hcur x hx
        · rcases List.mem_cons.mp hx with rfl | hx
          · decide
          · exact hs x hx

theorem sentLoop_out_strip_ne (cs : Nat) (ss : List (List Char)) :
    ∀ cur, ∀ out ∈ sentLoop cs ss cur, strip out ≠ [] := by
  induction ss with
  | nil =>
    intro cur out hout
    rw [sentLoop_nil] at hout
    unfold flushChunk at hout
    split at hout
    · next hne =>
      rcases List.mem_cons.mp hout with rfl | hout
      · rw [strip_idem]; exact hne
      · exact absurd hout (by simp)
    · exact absurd hout (by simp)
  | cons s ss ih =>
    intro cur out hout
    rw [sentLoop_cons] at hout
    by_cases h0 : strip s = []
    · rw [if_pos h0] at hout
      exact ih cur out hout
    · rw [if_neg h0] at hout
      by_cases hov : cur.length + (strip s).length > cs
      · rw [if_pos hov] at hout
        rcases List.mem_append.mp hout with hout | hout
        · unfold flushChunk at hout
          split at hout
          · next hne =>
            rcases List.mem_cons.mp hout with rfl | hout
            · rw [strip_idem]; exact hne
            · exact absurd hout (by simp)
          · exact absurd hout (by simp)
        · exact ih (strip s) out hout
      · rw [if_neg hov] at hout
        exact ih (cur ++ ' ' :: strip s) out hout

theorem sentLoop_all_ws (cs : Nat) (ss : List (List Char))
    (hss : ∀ s ∈ ss, ∀ a ∈ s, a.isWhitespace = true) :
    ∀ cur, (∀ a ∈ cur, a.isWhitespace = true) →
      sentLoop cs ss cur = [] := by
  induction ss with
  | nil =>
    intro cur hcur
    rw [sentLoop_nil]
    unfold flushChunk
    rw [if_neg (by simp [strip_all_ws hcur])]
  | cons s ss ih =>
    intro cur hcur
    have h0 : strip s = [] := strip_all_ws (hss s (by simp))
    rw [sentLoop_cons, if_pos h0]
    exact ih (fun t ht => hss t (by simp [ht])) cur hcur

/-! ## Facts about the paragraph-accumulation loop -/

theorem paraLoop_nil (cs : Nat) (cur : List Char) :
    paraLoop cs [] cur = flushChunk cur := rfl

theorem paraLoop_cons (cs : Nat) (p : List Char) (ps : List (List Char))
    (cur : List Char) :
    paraLoop cs (p :: ps) cur =
      if cur.length + p.length > cs then
        flushChunk cur ++
          (if p.length > cs then
            split_large_paragraph cs p ++ paraLoop cs ps []
          else paraLoop cs ps p)
      else paraLoop cs ps (cur ++ '\n' :: '\n' :: p) := rfl

theorem split_large_paragraph_flatten_filter (cs : Nat) (p : Char → Bool)
    (hp : ∀ c, c.isWhitespace = true → p c = false)
    (ht : ∀ c, isTerm c = true → p c = false) (par : List Char) :
    ((split_large_paragraph cs par).flatten).filter p = par.filter p := by
  unfold split_large_paragraph
  rw [sentLoop_flatten_filter cs p hp (reSplitTerm par) []]
  simp only [List.nil_append]
  exact reSplitTerm_flatten_filter p ht par

theorem split_large_chunk_flatten_filter (cs : Nat) (p : Char → Bool)
    (hp : ∀ c, c.isWhitespace = true → p c = false)
    (ht : ∀ c, isTerm c = true → p c = false) (chunk : List Char) :
    ((split_large_chunk cs chunk).flatten).filter p = chunk.filter p := by
  unfold split_large_chunk
  split
  · simp
  · rw [sentLoop_flatten_filter cs p hp (reSplitTerm chunk) []]
    simp only [List.nil_append]
    exact reSplitTerm_flatten_filter p ht chunk

theorem paraLoop_flatten_filter (cs : Nat) (p : Char → Bool)
    (hp : ∀ c, c.isWhitespace = true → p c = false)
    (ht : ∀ c, isTerm c = true → p c = false) (ps : List (List Char)) :
    ∀ cur, ((paraLoop cs ps cur).flatten).filter p =
      (cur ++ ps.flatten).filter p := by
  induction ps with
  | nil =>
    intro cur
    rw [paraLoop_nil, flushChunk_flatten_filter p hp]
    simp
  | cons q ps ih =>
    intro cur
    rw [paraLoop_cons]
    have hnl : p '\n' = false := hp '\n' (by decide)
    by_cases hov : cur.length + q.length > cs
    · rw [if_pos hov]
      by_cases hbig : q.length > cs
      · rw [if_pos hbig]
        simp only [List.flatten_append, List.filter_append,
          flushChunk_flatten_filter p hp,
          split_large_paragraph_flatten_filter cs p hp ht, ih [],
          List.flatten_cons, List.nil_append]
      · rw [if_neg hbig]
        simp only [List.flatten_append, List.filter_append,
          flushChunk_flatten_filter p hp, ih q, List.flatten_cons]
    · rw [if_neg hov, ih (cur ++ '\n' :: '\n' :: q)]
      simp [List.filter_append, List.filter_cons, hnl]

theorem paraLoop_out_strip_ne (cs : Nat) (ps : List (List Char)) :
    ∀ cur, ∀ out ∈ paraLoop cs ps cur, strip out ≠ [] := by
  induction ps with
  | nil =>
    intro cur out hout
    rw [paraLoop_nil] at hout
    unfold flushChunk at hout
    split at hout
    · next hne =>
      rcases List.mem_cons.mp hout with rfl | hout
      · rw [strip_idem]; exact hne
      · exact absurd hout (by simp)
    · exact absurd hout (by simp)
  | cons q ps ih =>
    intro cur out hout
    rw [paraLoop_cons] at hout
    by_cases hov : cur.length + q.length > cs
    · rw [if_pos hov] at hout
      rcases List.mem_append.mp hout with hout | hout
      · unfold flushChunk at hout
        split at hout
        · next hne =>
          rcases List.mem_cons.mp hout with rfl | hout
          · rw [strip_idem]; exact hne
          · exact absurd hout (by simp)
        · exact absurd hout (by simp)
      · by_cases hbig : q.length > cs
        · rw [if_pos hbig] at hout
          rcases List.mem_append.mp hout with hout | hout
          · exact sentLoop_out_strip_ne cs (reSplitTerm q) [] out hout
          · exact ih [] out hout
        · rw [if_neg hbig] at hout
          exact ih q out hout
    · rw [if_neg hov] at hout
      exact ih (cur ++ '\n' :: '\n' :: q) out hout

theorem paraLoop_all_ws (cs : Nat) (ps : List (List Char))
    (hps : ∀ q ∈ ps, ∀ a ∈ q, a.isWhitespace = true) :
    ∀ cur, (∀ a ∈ cur, a.isWhitespace = true) →
      paraLoop cs ps cur = [] := by
  induction ps with
  | nil =>
    intro cur hcur
    rw [paraLoop_nil]
    unfold flushChunk
    rw [if_neg (by simp [strip_all_ws hcur])]
  | cons q ps ih =>
    intro cur hcur
    have hq : ∀ a ∈ q, a.isWhitespace = true := hps q (by simp)
    have hps' : ∀ t ∈ ps, ∀ a ∈ t, a.isWhitespace = true :=
      fun t ht => hps t (by simp [ht])
    rw [paraLoop_cons]
    by_cases hov : cur.length + q.length > cs
    · rw [if_pos hov]
      have hflush : flushChunk cur = [] := by
        unfold flushChunk
        rw [if_neg (by simp [strip_all_ws hcur])]
      by_cases hbig : q.length > cs
      · rw [if_pos hbig, hflush]
        have hslp : split_large_paragraph cs q = [] := by
          unfold split_large_paragraph
          refine sentLoop_all_ws cs (reSplitTerm q) ?_ [] (by simp)
          intro s hs a ha
          exact hq a (reSplitTerm_mem q s hs a ha)
        rw [hslp]
        simpa using ih hps' [] (by simp)
      · rw [if_neg hbig, hflush]
        simpa using ih hps' q hq
    · rw [if_neg hov]
      refine ih hps' (cur ++ '\n' :: '\n' :: q) ?_
      intro a ha
      rcases List.mem_append.mp ha with ha | ha
      · exact hcur a ha
      · rcases List.mem_cons.mp ha with rfl | ha
        · decide
        · rcases List.mem_cons.mp ha with rfl | ha
          · decide
          · exact hq a ha

/-! ## Master theorems about `split_text` -/

theorem split_text_short {cs : Nat} {text : List Char}
    (h : text.length ≤ cs) : split_text cs text = [text] := by
  unfold split_text
  rw [if_pos h]

theorem finalPass_flatten_filter (cs : Nat) (p : Char → Bool)
    (hp : ∀ c, c.isWhitespace = true → p c = false)
    (ht : ∀ c, isTerm c = true → p c = false) (chunks : List (List Char)) :
    (((chunks.map (fun c =>
        if c.length > cs then split_large_chunk cs c else [c])).flatten).flatten).filter p =
      (chunks.flatten).filter p := by
  induction chunks with
  | nil => rfl
  | cons c rest ih =>
    simp only [List.map_cons, List.flatten_cons, List.flatten_append,
      List.filter_append, ih]
    by_cases hbig : c.length > cs
    · rw [if_pos hbig, split_large_chunk_flatten_filter cs p hp ht]
    · rw [if_neg hbig]
      simp

theorem split_text_flatten_filter (cs : Nat) (text : List Char) :
    ((split_text cs text).flatten).filter keepChar = text.filter keepChar := by
  have hp : ∀ c, c.isWhitespace = true → keepChar c = false :=
    fun _ h => keepChar_of_ws h
  have ht : ∀ c : Char, isTerm c = true → keepChar c = false := by
    intro c h
    simp [keepChar, h]
  unfold split_text
  split
  · simp
  · rw [finalPass_flatten_filter cs keepChar hp ht,
      paraLoop_flatten_filter cs keepChar hp ht (splitParas text) []]
    simp only [List.nil_append]
    exact splitParas_flatten_filter keepChar (by decide) text

theorem split_text_le_or_noTerm (cs : Nat) (text : List Char) :
    ∀ out ∈ split_text cs text,
      out.length ≤ cs ∨ ∀ a ∈ out, isTerm a = false := by
  intro out hout
  unfold split_text at hout
  split at hout
  · next hle =>
    rcases List.mem_cons.mp hout with rfl | h
    · exact Or.inl hle
    · exact absurd h (by simp)
  · obtain ⟨L, hL, houtL⟩ := List.mem_flatten.mp hout
    obtain ⟨chunk, hchunk, rfl⟩ := List.mem_map.mp hL
    by_cases hbig : chunk.length > cs
    · rw [if_pos hbig] at houtL
      unfold split_large_chunk at houtL
      split at houtL
      · next hle2 =>
        rcases List.mem_cons.mp houtL with rfl | h
        · exact Or.inl hle2
        · exact absurd h (by simp)
      · refine Or.inr ?_
        exact sentLoop_out_noTerm cs (reSplitTerm chunk)
          (reSplitTerm_noTerm chunk) [] (by simp) out houtL
    · rw [if_neg hbig] at houtL
      rcases List.mem_cons.mp houtL with rfl | h
      · exact Or.inl (Nat.le_of_not_lt hbig)
      · exact absurd h (by simp)

theorem split_text_strip_ne {cs : Nat} {text : List Char}
    (hlong : text.length > cs) :
    ∀ out ∈ split_text cs text, strip out ≠ [] := by
  intro out hout
  unfold split_text at hout
  rw [if_neg (Nat.not_le.mpr hlong)] at hout
  obtain ⟨L, hL, houtL⟩ := List.mem_flatten.mp hout
  obtain ⟨chunk, hchunk, rfl⟩ := List.mem_map.mp hL
  by_cases hbig : chunk.length > cs
  · rw [if_pos hbig] at houtL
    unfold split_large_chunk at houtL
    split at houtL
    · rcases List.mem_cons.mp houtL with rfl | h
      · exact paraLoop_out_strip_ne cs (splitParas text) [] out hchunk
      · exact absurd h (by simp)
    · exact sentLoop_out_strip_ne cs (reSplitTerm chunk) [] out houtL
  · rw [if_neg hbig] at houtL
    rcases List.mem_cons.mp houtL with rfl | h
    · exact paraLoop_out_strip_ne cs (splitParas text) [] out hchunk
    · exact absurd h (by simp)

theorem split_text_all_ws {cs : Nat} {text : List Char}
    (hws : ∀ a ∈ text, a.isWhitespace = true) (hlong : text.length > cs) :
    split_text cs text = [] := by
  unfold split_text
  rw [if_neg (Nat.not_le.mpr hlong)]
  have hpl : paraLoop cs (splitParas text) [] = [] := by
    refine paraLoop_all_ws cs (splitParas text) ?_ [] (by simp)
    intro q hq a ha
    exact hws a (splitParas_mem text q hq a ha)
  rw [hpl]
  rfl

/-! ## The 3000-character, five-paragraph ingestion scenario -/

theorem replicate_no_nl {n : Nat} {ch : Char} (h : ch ≠ '\n') :
    ∀ c ∈ List.replicate n ch, c ≠ '\n' := by
  intro c hc
  rw [List.eq_of_mem_replicate hc]
  exact h

theorem replicate_no_ws {n : Nat} {ch : Char} (h : ch.isWhitespace = false) :
    ∀ c ∈ List.replicate n ch, c.isWhitespace = false := by
  intro c hc
  rw [List.eq_of_mem_replicate hc]
  exact h

theorem flushChunk_noWs {l : List Char}
    (h : ∀ c ∈ l, c.isWhitespace = false) (hne : l ≠ []) :
    flushChunk l = [l] := by
  unfold flushChunk
  rw [strip_noWs h, if_pos hne]

theorem flushChunk_nl2 {l : List Char}
    (h : ∀ c ∈ l, c.isWhitespace = false) (hne : l ≠ []) :
    flushChunk ('\n' :: '\n' :: l) = [l] := by
  unfold flushChunk
  rw [strip_cons_nl2, strip_noWs h, if_pos hne]

/-- The ingestion scenario of the spec: a 3000-character document made of
five distinct paragraphs (599, 599, 598, 598 and 598 characters of the
letters a–e) separated by blank lines. -/
def scenarioText : List Char :=
  List.replicate 599 'a' ++ '\n' :: '\n' ::
    (List.replicate 599 'b' ++ '\n' :: '\n' ::
      (List.replicate 598 'c' ++ '\n' :: '\n' ::
        (List.replicate 598 'd' ++ '\n' :: '\n' :: List.replicate 598 'e')))

theorem scenarioText_length : scenarioText.length = 3000 := by
  unfold scenarioText
  simp only [List.length_append, List.length_cons, List.length_replicate]

theorem split_text_scenario :
    split_text 1000 scenarioText =
      [List.replicate 599 'a', List.replicate 599 'b',
       List.replicate 598 'c', List.replicate 598 'd',
       List.replicate 598 'e'] := by
  have hsp : splitParas scenarioText =
      [List.replicate 599 'a', List.replicate 599 'b',
       List.replicate 598 'c', List.replicate 598 'd',
       List.replicate 598 'e'] := by
    unfold scenarioText
    rw [splitParas_append_nl (replicate_no_nl (by decide)),
      splitParas_append_nl (replicate_no_nl (by decide)),
      splitParas_append_nl (replicate_no_nl (by decide)),
      splitParas_append_nl (replicate_no_nl (by decide)),
      splitParas_no_nl (replicate_no_nl (by decide))]
  have hne : ∀ (n : Nat) (ch : Char), n ≠ 0 → List.replicate n ch ≠ [] := by
    intro n ch hn h
    have := congrArg List.length h
    rw [List.length_replicate] at this
    exact hn this
  unfold split_text
  rw [if_neg (by rw [scenarioText_length]; decide), hsp]
  rw [paraLoop_cons,
    if_neg (by simp only [List.length_nil, List.length_replicate]; decide)]
  simp only [List.nil_append]
  rw [paraLoop_cons,
    if_pos (by
      simp only [List.length_cons, List.length_replicate]
      decide),
    if_neg (by simp only [List.length_replicate]; decide),
    flushChunk_nl2 (replicate_no_ws (by decide)) (hne _ _ (by decide))]
  rw [paraLoop_cons,
    if_pos (by simp only [List.length_replicate]; decide),
    if_neg (by simp only [List.length_replicate]; decide),
    flushChunk_noWs (replicate_no_ws (by decide)) (hne _ _ (by decide))]
  rw [paraLoop_cons,
    if_pos (by simp only [List.length_replicate]; decide),
    if_neg (by simp only [List.length_replicate]; decide),
    flushChunk_noWs (replicate_no_ws (by decide)) (hne _ _ (by decide))]
  rw [paraLoop_cons,
    if_pos (by simp only [List.length_replicate]; decide),
    if_neg (by simp only [List.length_replicate]; decide),
    flushChunk_noWs (replicate_no_ws (by decide)) (hne _ _ (by decide))]
  rw [paraLoop_nil,
    flushChunk_noWs (replicate_no_ws (by decide)) (hne _ _ (by decide))]
  simp only [List.cons_append, List.nil_append, List.map_cons, List.map_nil]
  rw [if_neg (by simp only [List.length_replicate]; decide),
    if_neg (by simp only [List.length_replicate]; decide)]
  rw [if_neg (by simp only [List.length_replicate]; decide),
    if_neg (by simp only [List.length_replicate]; decide),
    if_neg (by simp only [List.length_replicate]; decide)]
  simp only [List.flatten_cons, List.flatten_nil, List.cons_append,
    List.nil_append, List.append_nil]

/-! ## Service layer: data model

Python floats are modelled as `ℚ` (only control flow, never float
arithmetic, is at stake in the claims); Python `uuid.uuid4()` is modelled
as a supply `u : Nat → String` handing out the value of the k-th `uuid4()`
call of the operation; timestamps are not modelled.  A Python service
client that may be `None` is an `Option Unit`; the outcome of an external
network call (return value or raised exception) is an oracle parameter of
type `Except String α`. -/

/-- A search-result dict as built by `RetrievalService.search`
(`retrieval.py` 44–54 for the mock path, 88–98 for the Qdrant path).  Of
the nested `metadata` dict only the `title` key is ever read (by
`get_relevant_context`), so it is modelled as `metadata_title`; the mock
payload carries neither `title` nor `document_id` nor `chunk_index`, and
readers default them to `none`, `""` and `0` respectively via `.get`. -/
structure SearchResult where
  id : String
  content : List Char
  metadata_title : Option (List Char)
  similarity : ℚ
  document_id : String
  chunk_index : Nat
deriving DecidableEq

/-- A raw hit as returned by the Qdrant client, with the payload fields
read by `RetrievalService.search`. -/
structure QdrantHit where
  id : String
  content : List Char
  metadata_title : Option (List Char)
  score : ℚ
  document_id : String
  chunk_index : Nat
deriving DecidableEq

/-- The result-formatting of `RetrievalService.search` (`retrieval.py`
88–98). -/
def formatHit (h : QdrantHit) : SearchResult :=
  { id := h.id, content := h.content, metadata_title := h.metadata_title,
    similarity := h.score, document_id := h.document_id,
    chunk_index := h.chunk_index }

/-- One element of the mock result list of `RetrievalService.search`
(`retrieval.py` 46–54): id `"mock-{i}"`, content
`"Mock result for query: {query}"`, similarity `0.8`, no title and no
document id in the payload. -/
def mockSearchResult (query : List Char) (i : Nat) : SearchResult :=
  { id := "mock-" ++ toString i
    content := "Mock result for query: ".toList ++ query
    metadata_title := none
    similarity := 4/5
    document_id := ""
    chunk_index := 0 }

/-- `RetrievalService.search` (`retrieval.py` 37–105): with no Qdrant
client it silently returns `top_k` synthetic mock results; with a client,
the whole try-block (query embedding plus Qdrant search plus formatting)
is the oracle `backend`, and an exception is re-raised (`raise`). -/
def search (qdrant_client : Option Unit) (query : List Char) (top_k : Nat)
    (backend : Except String (List QdrantHit)) :
    Except String (List SearchResult) :=
  match qdrant_client with
  | none => .ok ((List.range top_k).map (mockSearchResult query))
  | some _ =>
    match backend with
    | .ok hits => .ok (hits.map formatHit)
    | .error e => .error e

/-- `RetrievalService.get_relevant_context` (`retrieval.py` 107–127):
formats the search results into a context block; any exception from the
search is caught, logged, and turned into the empty string. -/
def get_relevant_context
    (searchOutcome : Except String (List SearchResult)) : List Char :=
  match searchOutcome with
  | .ok results =>
    List.intercalate ('\n' :: '\n' :: [])
      ((results.filter (fun r => !(strip r.content).isEmpty)).map
        (fun r => "Source: ".toList ++ r.metadata_title.getD "Unknown".toList
          ++ '\n' :: r.content))
  | .error _ => []

/-! ## Service layer: embedding and storage -/

/-- The deterministic placeholder embedding `[0.1] * 1536` of
`embedding.py` (lines 79 and 91). -/
def mockEmbedding : List ℚ := List.replicate 1536 (1/10)

/-- `EmbeddingService.generate_embeddings` (`embedding.py` 75–91): with no
Qwen client, return one placeholder vector per text; with a client, the
external call is the oracle `api`, and any exception is caught and
replaced by the same placeholder vectors. -/
def generate_embeddings (qwen_client : Option Unit)
    (texts : List (List Char)) (api : Except String (List (List ℚ))) :
    List (List ℚ) :=
  match qwen_client with
  | none => texts.map (fun _ => mockEmbedding)
  | some _ =>
    match api with
    | .ok embs => embs
    | .error _ => texts.map (fun _ => mockEmbedding)

/-- `models/document.py` `DocumentChunk` with the fields populated by
`chunk_and_embed_document` (`created_at` not modelled). -/
structure DocumentChunk where
  id : String
  document_id : String
  content : List Char
  metadata : List (String × String)
  embedding : List ℚ
  chunk_index : Nat
  total_chunks : Nat

/-- The stripped non-blank chunk texts of `chunk_and_embed_document`
(`embedding.py` line 104): `[chunk.strip() for chunk in chunks if
chunk.strip()]`. -/
def chunkTexts (cs : Nat) (content : List Char) : List (List Char) :=
  ((split_text cs content).filter (fun c => !(strip c).isEmpty)).map strip

/-- `EmbeddingService.chunk_and_embed_document` (`embedding.py` 93–122):
split, strip and filter the chunks, embed them in one batch, then `zip`
texts with embeddings and `enumerate`.  Each loop iteration makes two
`uuid4()` calls: one for `id` and one for the eagerly evaluated default of
`metadata.get("document_id", str(uuid.uuid4()))` — so when the metadata
carries no `"document_id"` key, every chunk receives a distinct fresh
document id. -/
def chunk_and_embed_document (cs : Nat) (u : Nat → String)
    (qwen_client : Option Unit) (api : Except String (List (List ℚ)))
    (content : List Char) (metadata : List (String × String)) :
    List DocumentChunk :=
  let chunk_texts := chunkTexts cs content
  let embeddings := generate_embeddings qwen_client chunk_texts api
  ((chunk_texts.zip embeddings).enum).map fun ie =>
    { id := u (2 * ie.1)
      document_id := (metadata.lookup "document_id").getD (u (2 * ie.1 + 1))
      content := ie.2.1
      metadata := metadata
      embedding := ie.2.2
      chunk_index := ie.1
      total_chunks := chunk_texts.length }

/-- A Qdrant point as built by `store_document_chunks` (`embedding.py`
136–149); payload `metadata`/`created_at` omitted for brevity. -/
structure QdrantPoint where
  id : String
  vector : List ℚ
  content : List Char
  document_id : String
  chunk_index : Nat

def toPoint (c : DocumentChunk) : QdrantPoint :=
  { id := c.id, vector := c.embedding, content := c.content,
    document_id := c.document_id, chunk_index := c.chunk_index }

/-- `EmbeddingService.store_document_chunks` (`embedding.py` 127–161).
The second component of the successful result is the sequence of points
actually upserted — the write side effect made explicit.  With no Qdrant
client the call logs a warning, writes nothing, and returns `True`; with a
client, a failed upsert is re-raised. -/
def store_document_chunks (qdrant_client : Option Unit)
    (chunks : List DocumentChunk) (upsert : Except String Unit) :
    Except String (Bool × List QdrantPoint) :=
  match qdrant_client with
  | none => .ok (true, [])
  | some _ =>
    match upsert with
    | .ok _ => .ok (true, chunks.map toPoint)
    | .error e => .error e

/-- The result dict of `process_document` (`embedding.py` 188–192). -/
structure ProcessResult where
  document_id : String
  chunks_processed : Nat
  status : String

/-- `EmbeddingService.process_document` (`embedding.py` 163–195): extend
the metadata, chunk and embed, store, and report; `if not success: raise`
plus the re-raising except-block make every failure fatal. -/
def process_document (cs : Nat) (u : Nat → String) (freshDocId : String)
    (qwen_client qdrant_client : Option Unit)
    (api : Except String (List (List ℚ))) (upsert : Except String Unit)
    (content : List Char) (title processed_at : String)
    (metadata : List (String × String)) :
    Except String (ProcessResult × List QdrantPoint) :=
  let doc_metadata := ("title", title) :: ("source", "textbook") ::
    ("processed_at", processed_at) :: metadata
  let chunks := chunk_and_embed_document cs u qwen_client api content
    doc_metadata
  match store_document_chunks qdrant_client chunks upsert with
  | .error e => .error e
  | .ok (success, written) =>
    if success then
      .ok ({ document_id :=
               match chunks with
               | [] => freshDocId
               | c :: _ => c.document_id
             chunks_processed := chunks.length
             status := "success" }, written)
    else .error "Failed to store document chunks"

/-! ## Service layer: RAG orchestration -/

/-- `RAGService._generate_response` (`rag.py` 88–146): with no Qwen client
a fixed mock answer; with a client the chat-completion call is the oracle
and its failure is re-raised. -/
def generateResponse (qwen_client : Option Unit) (query : List Char)
    (api : Except String (List Char)) : Except String (List Char) :=
  match qwen_client with
  | none => .ok ("I received your query: '".toList ++ query ++
      "'. This is a mock response since Qwen is not configured.".toList)
  | some _ => api

/-- A source dict as built by `RAGService._get_sources` (`rag.py`
157–166); the `metadata` passthrough field is omitted. -/
structure Source where
  id : String
  content_preview : List Char
  similarity : ℚ
  document_id : String

/-- `RAGService._get_sources` (`rag.py` 148–171): map the search results
to attribution sources with a 200-character content preview; any exception
is caught and degrades to the empty source list. -/
def getSources (searchOutcome : Except String (List SearchResult)) :
    List Source :=
  match searchOutcome with
  | .error _ => []
  | .ok results =>
    results.map fun r =>
      { id := r.id
        content_preview := r.content.take 200 ++ "...".toList
        similarity := r.similarity
        document_id := r.document_id }

/-- `CohereService.summarize_text` (`cohere_service.py` 26–43): with no
Cohere client return the input text unchanged; with a client, a failed
summarize call is caught and the input text is returned unchanged. -/
def summarize_text (cohere_client : Option Unit) (text : List Char)
    (api : Except String (List Char)) : List Char :=
  match cohere_client with
  | none => text
  | some _ =>
    match api with
    | .ok s => s
    | .error _ => text

/-- The result dict of `process_query` (`rag.py` 73–79);
`conversation_id` and `timestamp` are not modelled. -/
structure RagResult where
  response : List Char
  sources : List Source
  context : List Char

/-- `RAGService.process_query` (`rag.py` 34–86): retrieve context (which
never raises — see `get_relevant_context`), join it with the caller's
context, generate (fatal on failure), fetch sources (best effort), then
apply the Cohere enhancement only when `settings.cohere_api_key` is set,
catching any enhancement failure and keeping the original response. -/
def process_query (query context : List Char)
    (retrieval : Except String (List SearchResult))
    (qwen_client : Option Unit) (genApi : Except String (List Char))
    (sourcesOutcome : Except String (List SearchResult))
    (cohere_api_key : Bool) (cohere_client : Option Unit)
    (cohereApi : Except String (List Char)) : Except String RagResult :=
  let retrieved := get_relevant_context retrieval
  let final_context := List.intercalate ('\n' :: '\n' :: [])
    (([context, retrieved]).filter (fun c => !c.isEmpty))
  match generateResponse qwen_client query genApi with
  | .error e => .error e
  | .ok response0 =>
    let sources := getSources sourcesOutcome
    let response :=
      if cohere_api_key then summarize_text cohere_client response0 cohereApi
      else response0
    .ok { response := response, sources := sources, context := final_context }

/-! ## Claim theorems -/

/-- C1, counterexample: `get_relevant_context` turns a retrieval-backend
failure into the empty context string, identical to the normal
zero-matches result — the failure does not propagate and the two cases are
indistinguishable. -/
theorem C1_counterexample :
    get_relevant_context (Except.error "retrieval backend failed") = [] ∧
    get_relevant_context (Except.ok []) = [] := ⟨rfl, rfl⟩

/-- C1 (amended): for every query, `get_relevant_context` catches every
retrieval-backend failure and returns the empty context string — the same
value as the normal zero-matches case — so `process_query` proceeds and
succeeds (when generation succeeds) instead of propagating the retrieval
failure to its caller. -/
theorem C1_amended : ∀ (e : String) (query ctx response : List Char)
    (srcs : Except String (List SearchResult)),
    get_relevant_context (Except.error e) = [] ∧
    get_relevant_context (Except.ok []) = [] ∧
    process_query query ctx (Except.error e) (some ()) (Except.ok response)
      srcs false none (Except.error e) =
      Except.ok { response := response
                  sources := getSources srcs
                  context := List.intercalate ('\n' :: '\n' :: [])
                    (([ctx, ([] : List Char)]).filter (fun c => !c.isEmpty)) } := by
  intro e query ctx response srcs
  exact ⟨rfl, rfl, rfl⟩

/-- C2, counterexample: in a deployment with the embedding client present,
a failing external embedding call is not propagated as a typed failure:
`generate_embeddings` silently returns the very same placeholder vectors
that the degraded (client-absent) deployment returns. -/
theorem C2_counterexample :
    generate_embeddings (some ()) ["some text".toList]
      (Except.error "embedding call failed") = [mockEmbedding] ∧
    generate_embeddings none ["some text".toList] (Except.ok []) =
      [mockEmbedding] := ⟨rfl, rfl⟩

/-- C2 (amended): `generate_embeddings` never propagates an embedding
failure in any deployment: both when the client is absent and when the
external call fails it falls back to one deterministic placeholder vector
`[0.1] * 1536` per input text (correct count and dimensionality), so real
and placeholder embeddings are silently mixed within one deployment. -/
theorem C2_amended : ∀ (texts : List (List Char)) (e : String)
    (api : Except String (List (List ℚ))),
    generate_embeddings none texts api = texts.map (fun _ => mockEmbedding) ∧
    generate_embeddings (some ()) texts (Except.error e) =
      texts.map (fun _ => mockEmbedding) ∧
    (generate_embeddings (some ()) texts (Except.error e)).map List.length =
      texts.map (fun _ => 1536) ∧
    mockEmbedding.length = 1536 := by
  intro texts e api
  have hm : mockEmbedding.length = 1536 := by
    show (List.replicate 1536 ((1 : ℚ)/10)).length = 1536
    rw [List.length_replicate]
  refine ⟨rfl, rfl, ?_, hm⟩
  show (texts.map fun _ => mockEmbedding).map List.length = _
  rw [List.map_map]
  have hfun : List.length ∘ (fun _ : List Char => mockEmbedding) =
      fun _ : List Char => 1536 := by
    funext x
    exact hm
  rw [hfun]

/-- C3, counterexample: the sentence terminator `'.'` is a non-whitespace
character of the input, but it is absent from every chunk returned by
`split_text` — the concatenation of the chunks loses it. -/
theorem C3_counterexample :
    ('.' ∈ "ab.cd.ef.gh".toList ∧ ('.' : Char).isWhitespace = false) ∧
    '.' ∉ (split_text 5 "ab.cd.ef.gh".toList).flatten := by decide

/-- C3 (amended): for every input text and chunk size, the concatenation
of the chunks returned by `split_text` preserves exactly the input's
characters that are neither whitespace nor a sentence terminator
(`.`, `!`, `?`), in order; besides whitespace normalization, sentence
terminators may be dropped by the sentence-boundary re-splitting. -/
theorem C3_amended : ∀ (cs : Nat) (text : List Char),
    ((split_text cs text).flatten).filter keepChar = text.filter keepChar :=
  split_text_flatten_filter

/-- C4, counterexample: `split_text 5` on `"abcde.xy.abc"` returns the
chunk `"xy abc"` of length 6 > 5, although every terminator-free run of
the input (which contains no paragraph break at all) has length at most 5
— the greedy re-joining with a space overshoots the chunk size, so the
documented oversized-chunk exception does not cover this chunk. -/
theorem C4_counterexample :
    "xy abc".toList ∈ split_text 5 "abcde.xy.abc".toList ∧
    ("xy abc".toList).length > 5 ∧
    (∀ s ∈ reSplitTerm "abcde.xy.abc".toList, s.length ≤ 5) ∧
    '\n' ∉ "abcde.xy.abc".toList := by decide

/-- C4 (amended): every chunk returned by `split_text` either has length
at most `chunk_size` or contains no sentence terminator at all (such
terminator-free chunks can exceed `chunk_size`, and not only when a single
run of the input does: greedy space/blank-line re-joining can overshoot by
one or two characters).  The concrete scenario holds: a 3000-character
input of five distinct paragraphs of roughly 600 characters each with
`chunk_size = 1000` yields at least 3 chunks, each of at most 1000
characters. -/
theorem C4_amended :
    (∀ (cs : Nat) (text : List Char), ∀ c ∈ split_text cs text,
      c.length ≤ cs ∨ ∀ a ∈ c, isTerm a = false) ∧
    3 ≤ (split_text 1000 scenarioText).length ∧
    scenarioText.length = 3000 ∧
    ∀ c ∈ split_text 1000 scenarioText, c.length ≤ 1000 := by
  refine ⟨fun cs text => split_text_le_or_noTerm cs text, ?_,
    scenarioText_length, ?_⟩
  · rw [split_text_scenario]; decide
  · rw [split_text_scenario]
    intro c hc
    simp only [List.mem_cons, List.not_mem_nil, or_false] at hc
    rcases hc with rfl | rfl | rfl | rfl | rfl <;>
      (simp only [List.length_replicate]; decide)

/-- C4, witness instantiating the universally quantified part at a
concrete input. -/
theorem C4_witness :
    "ab".toList ∈ split_text 5 "ab".toList ∧
    (("ab".toList).length ≤ 5 ∨ ∀ a ∈ "ab".toList, isTerm a = false) :=
  ⟨by decide, C4_amended.1 5 "ab".toList "ab".toList (by decide)⟩

/-- C5, counterexample: for the two-character input `" a"` (which fits in
one chunk), `split_text` returns the input verbatim, not the trimmed
input. -/
theorem C5_counterexample :
    split_text 5 " a".toList ≠ [strip " a".toList] ∧
    split_text 5 " a".toList = [" a".toList] := by decide

/-- C5 (amended): for every text with `len(text) <= chunk_size`,
`split_text` returns exactly one chunk, and that chunk is the input
verbatim (leading and trailing whitespace included, not trimmed). -/
theorem C5_amended : ∀ (cs : Nat) (text : List Char),
    text.length ≤ cs → split_text cs text = [text] :=
  fun _ _ h => split_text_short h

/-- C5, witness. -/
theorem C5_witness :
    ("ab".toList).length ≤ 5 ∧ split_text 5 "ab".toList = ["ab".toList] :=
  ⟨by decide, C5_amended 5 "ab".toList (by decide)⟩

/-- C6, counterexample: on the whitespace-only input `" "` (not longer
than the chunk size), `split_text` returns that input as a single chunk —
a chunk that is empty after trimming — instead of the empty sequence. -/
theorem C6_counterexample :
    (∀ c ∈ " ".toList, c.isWhitespace = true) ∧
    split_text 5 " ".toList = [" ".toList] ∧
    strip " ".toList = [] := by decide

/-- C6 (amended): `split_text` is total (never raises).  For inputs longer
than `chunk_size`, no returned chunk is empty after trimming and a
whitespace-only input yields the empty sequence; for inputs of length at
most `chunk_size` the single returned chunk is the input verbatim, which
for a whitespace-only input is a whitespace-only chunk. -/
theorem C6_amended : ∀ (cs : Nat) (text : List Char),
    (text.length ≤ cs → split_text cs text = [text]) ∧
    (text.length > cs →
      (∀ c ∈ split_text cs text, strip c ≠ []) ∧
      ((∀ a ∈ text, a.isWhitespace = true) → split_text cs text = [])) :=
  fun cs text =>
    ⟨fun h => @split_text_short cs text h,
     fun h => ⟨split_text_strip_ne h, fun hws => split_text_all_ws hws h⟩⟩

/-- C6, witness. -/
theorem C6_witness :
    ("abcd".toList).length > 2 ∧
    (∀ c ∈ split_text 2 "abcd".toList, strip c ≠ []) :=
  ⟨by decide, ((C6_amended 2 "abcd".toList).2 (by decide)).1⟩

/-- C7, counterexample: with the vector-store client absent and the
backend unreachable, `search` does not propagate any failure: it silently
returns `top_k` synthetic mock results. -/
theorem C7_counterexample :
    search none "q".toList 3 (Except.error "vector store unreachable") =
      Except.ok [mockSearchResult "q".toList 0, mockSearchResult "q".toList 1,
        mockSearchResult "q".toList 2] := rfl

/-- C7 (amended): when the Qdrant client is present, a backend failure
propagates out of `search`; but when the client is absent, `search` never
fails — it fabricates exactly `top_k` mock results, so an absent client is
not distinguishable from a successful search by the outcome type. -/
theorem C7_amended : ∀ (query : List Char) (top_k : Nat) (e : String)
    (backend : Except String (List QdrantHit)),
    search (some ()) query top_k (Except.error e) = Except.error e ∧
    search none query top_k backend =
      Except.ok ((List.range top_k).map (mockSearchResult query)) ∧
    ((List.range top_k).map (mockSearchResult query)).length = top_k := by
  intro query top_k e backend
  refine ⟨rfl, rfl, ?_⟩
  rw [List.length_map, List.length_range]

/-- C8, counterexample: when the ingestion metadata carries no
`"document_id"` key, each chunk's `document_id` comes from a separate
`uuid.uuid4()` call inside the loop, so the two chunks of this document
receive two distinct fresh document ids. -/
theorem C8_counterexample :
    ((chunk_and_embed_document 2 (fun n => toString n) none
        (Except.error "api") "ab.cd".toList []).map
      (fun c => c.document_id)) = ["1", "3"] ∧
    ("1" : String) ≠ "3" := by
  exact ⟨rfl, by decide⟩

/-- C8 (amended): whenever the embedding step returns as many vectors as
there are chunk texts (as the mock path always does and the external
contract promises), the chunks produced by `chunk_and_embed_document`
satisfy `chunk_index = position`, `0 ≤ chunk_index < total_chunks`, and
`total_chunks = number of chunks returned`; and all chunks share the same
`document_id` provided the metadata supplies a `"document_id"` key —
otherwise each chunk receives an independently generated fresh id. -/
theorem C8_amended : ∀ (cs : Nat) (u : Nat → String)
    (qwen : Option Unit) (api : Except String (List (List ℚ)))
    (content : List Char) (metadata : List (String × String)) (d : String),
    metadata.lookup "document_id" = some d →
    (generate_embeddings qwen (chunkTexts cs content) api).length =
      (chunkTexts cs content).length →
    (chunk_and_embed_document cs u qwen api content metadata).length =
      (chunkTexts cs content).length ∧
    ∀ i (hi : i <
        (chunk_and_embed_document cs u qwen api content metadata).length),
      ((chunk_and_embed_document cs u qwen api content metadata).get
          ⟨i, hi⟩).chunk_index = i ∧
      ((chunk_and_embed_document cs u qwen api content metadata).get
          ⟨i, hi⟩).total_chunks =
        (chunk_and_embed_document cs u qwen api content metadata).length ∧
      ((chunk_and_embed_document cs u qwen api content metadata).get
          ⟨i, hi⟩).document_id = d := by
  intro cs u qwen api content metadata d hmeta hlen
  have hzlen : ((chunkTexts cs content).zip
      (generate_embeddings qwen (chunkTexts cs content) api)).length =
      (chunkTexts cs content).length := by
    rw [List.length_zip, hlen, Nat.min_self]
  have hreslen :
      (chunk_and_embed_document cs u qwen api content metadata).length =
      (chunkTexts cs content).length := by
    show (List.map _ (List.enum _)).length = _
    rw [List.length_map, List.enum_length, hzlen]
  refine ⟨hreslen, ?_⟩
  intro i hi
  have hi1 : i < (List.enum ((chunkTexts cs content).zip
      (generate_embeddings qwen (chunkTexts cs content) api))).length := by
    rw [List.enum_length, hzlen]
    rw [hreslen] at hi
    exact hi
  have hget : (chunk_and_embed_document cs u qwen api content metadata).get
      ⟨i, hi⟩ =
      (fun ie : Nat × (List Char × List ℚ) =>
        { id := u (2 * ie.1)
          document_id := (metadata.lookup "document_id").getD
            (u (2 * ie.1 + 1))
          content := ie.2.1
          metadata := metadata
          embedding := ie.2.2
          chunk_index := ie.1
          total_chunks := (chunkTexts cs content).length : DocumentChunk })
        ((List.enum ((chunkTexts cs content).zip
          (generate_embeddings qwen (chunkTexts cs content) api))).get
            ⟨i, hi1⟩) := by
    show (List.map _ _).get ⟨i, hi⟩ = _
    rw [List.get_eq_getElem, List.getElem_map, List.get_eq_getElem]
  rw [hget, List.get_eq_getElem, List.getElem_enum]
  refine ⟨rfl, hreslen.symm, ?_⟩
  show (metadata.lookup "document_id").getD _ = d
  rw [hmeta]
  rfl

/-- C8, witness. -/
theorem C8_witness :
    ([("document_id", "d1")].lookup "document_id" = some "d1") ∧
    ((generate_embeddings none (chunkTexts 2 "ab.cd".toList)
        (Except.error "x")).length = (chunkTexts 2 "ab.cd".toList).length) ∧
    ((chunk_and_embed_document 2 (fun n => toString n) none
        (Except.error "x") "ab.cd".toList [("document_id", "d1")]).length =
      (chunkTexts 2 "ab.cd".toList).length ∧
     ∀ i (hi : i < (chunk_and_embed_document 2 (fun n => toString n) none
         (Except.error "x") "ab.cd".toList [("document_id", "d1")]).length),
       ((chunk_and_embed_document 2 (fun n => toString n) none
           (Except.error "x") "ab.cd".toList
           [("document_id", "d1")]).get ⟨i, hi⟩).chunk_index = i ∧
       ((chunk_and_embed_document 2 (fun n => toString n) none
           (Except.error "x") "ab.cd".toList
           [("document_id", "d1")]).get ⟨i, hi⟩).total_chunks =
         (chunk_and_embed_document 2 (fun n => toString n) none
           (Except.error "x") "ab.cd".toList
           [("document_id", "d1")]).length ∧
       ((chunk_and_embed_document 2 (fun n => toString n) none
           (Except.error "x") "ab.cd".toList
           [("document_id", "d1")]).get ⟨i, hi⟩).document_id = "d1") :=
  ⟨rfl, by simp [generate_embeddings],
   C8_amended 2 (fun n => toString n) none (Except.error "x")
     "ab.cd".toList [("document_id", "d1")] "d1" rfl
     (by simp [generate_embeddings])⟩

/-- C9: if generation succeeds and the enhancement collaborator is absent
(no API key, or no client object) or its call fails, `process_query`
returns the originally generated answer unmodified, with no error
surfaced. -/
theorem C9_theorem : ∀ (query ctx : List Char)
    (retrieval srcs : Except String (List SearchResult))
    (qwen : Option Unit) (genApi : Except String (List Char))
    (resp : List Char) (key : Bool) (cclient : Option Unit)
    (capi : Except String (List Char)),
    generateResponse qwen query genApi = Except.ok resp →
    (key = false ∨ cclient = none ∨ ∃ e, capi = Except.error e) →
    ∃ r, process_query query ctx retrieval qwen genApi srcs key cclient
        capi = Except.ok r ∧ r.response = resp := by
  intro query ctx retrieval srcs qwen genApi resp key cclient capi hgen henh
  unfold process_query
  rw [hgen]
  refine ⟨_, rfl, ?_⟩
  show (if key then summarize_text cclient resp capi else resp) = resp
  rcases henh with rfl | rfl | ⟨e, rfl⟩
  · rfl
  · cases key <;> rfl
  · cases key
    · rfl
    · show summarize_text cclient resp (Except.error e) = resp
      cases cclient <;> rfl

/-- C9, witness: with no Qwen client (mock generation) and the Cohere key
set but the client absent, the mock answer comes back unmodified. -/
theorem C9_witness :
    generateResponse none "q".toList (Except.error "llm down") =
      Except.ok ("I received your query: '".toList ++ "q".toList ++
        "'. This is a mock response since Qwen is not configured.".toList) ∧
    (∃ r, process_query "q".toList [] (Except.error "idx") none
        (Except.error "llm down") (Except.error "idx") true none
        (Except.error "cohere down") = Except.ok r ∧
      r.response = "I received your query: '".toList ++ "q".toList ++
        "'. This is a mock response since Qwen is not configured.".toList) :=
  ⟨rfl, C9_theorem "q".toList [] (Except.error "idx") (Except.error "idx")
     none (Except.error "llm down") _ true none (Except.error "cohere down")
     rfl (Or.inr (Or.inl rfl))⟩

/-- C10: with the vector-store client absent, `store_document_chunks`
reports success while upserting nothing, and `process_document` therefore
returns status `"success"` with `chunks_processed` equal to the full chunk
count even though no point was written to any index. -/
theorem C10_theorem : ∀ (cs : Nat) (u : Nat → String) (freshDocId : String)
    (qwen : Option Unit) (api : Except String (List (List ℚ)))
    (upsert : Except String Unit) (content : List Char)
    (title processed_at : String) (metadata : List (String × String)),
    store_document_chunks none
      (chunk_and_embed_document cs u qwen api content
        (("title", title) :: ("source", "textbook") ::
          ("processed_at", processed_at) :: metadata)) upsert =
      Except.ok (true, []) ∧
    ∃ r, process_document cs u freshDocId qwen none api upsert content
        title processed_at metadata = Except.ok (r, []) ∧
      r.status = "success" ∧
      r.chunks_processed = (chunk_and_embed_document cs u qwen api content
        (("title", title) :: ("source", "textbook") ::
          ("processed_at", processed_at) :: metadata)).length := by
  intro cs u freshDocId qwen api upsert content title processed_at metadata
  exact ⟨rfl, ⟨_, rfl, rfl, rfl⟩⟩
